import Mathlib

/-!
Shallow embedding of the candidate-generation and validation engine of
`compare-all-the-names` (Go source `main.go`).  Token ids are modelled as
`Nat` (Go `uint32`; the interner assigns dense ids far below `2^32`, and no
arithmetic is performed on ids, only equality and indexing, so no wrap-around
can occur).  Generation stamps are modelled as `Nat` (Go `uint64`; the counter
starts at 10 and grows by 2 per validator call, so reaching `2^64` is
unreachable in any execution and overflow cannot occur).  Go maps are
modelled as association lists with first-match lookup; Go slices as `List`.
-/

/-- Association-list lookup, modelling Go `m[k]` with its `ok` flag
(`none` = key absent). -/
def tblLookup {κ α : Type} [DecidableEq κ] : List (κ × α) → κ → Option α
  | [], _ => none
  | (k, v) :: rest, q => if q = k then some v else tblLookup rest q

/-- The id-form equivalence table (`WordToMatches` / `TradeoutSets`). -/
abbrev Table : Type := List (Nat × List Nat)

/-- Digit extraction with structural fuel, so the kernel can evaluate it.
`toDigitsAux fuel n` is the little-endian base-10 digit list of `n`
whenever `n ≤ fuel`. -/
def toDigitsAux : Nat → Nat → List Nat
  | 0, _ => []
  | _ + 1, 0 => []
  | fuel + 1, n + 1 => ((n + 1) % 10) :: toDigitsAux fuel ((n + 1) / 10)

/-- Little-endian base-10 digits of `n`. -/
def decDigits (n : Nat) : List Nat := toDigitsAux n n

/-- Decimal rendering of a natural number, the embedding of Go
`fmt.Fprintf(sb, "%d", id)`. -/
def decRepr (n : Nat) : String :=
  ⟨(if n = 0 then [0] else (decDigits n).reverse).map Nat.digitChar⟩

theorem toDigitsAux_eq_digits : ∀ fuel n, n ≤ fuel → toDigitsAux fuel n = Nat.digits 10 n := by
  intro fuel
  induction fuel with
  | zero => intro n hn; interval_cases n; simp [toDigitsAux]
  | succ f ih =>
    intro n hn
    match n with
    | 0 => simp [toDigitsAux]
    | n + 1 =>
      have hdiv : (n + 1) / 10 ≤ f := by
        have h1 : (n + 1) / 10 < n + 1 := Nat.div_lt_self (Nat.succ_pos n) (by norm_num)
        omega
      rw [toDigitsAux, ih _ hdiv, Nat.digits_def' (by norm_num : (1:ℕ) < 10) (Nat.succ_pos n)]

theorem decDigits_eq (n : Nat) : decDigits n = Nat.digits 10 n :=
  toDigitsAux_eq_digits n n le_rfl

theorem decDigits_lt_ten (n : Nat) : ∀ d ∈ decDigits n, d < 10 := by
  intro d hd
  rw [decDigits_eq] at hd
  exact Nat.digits_lt_base (by norm_num) hd

theorem digitChar_inj_lt_ten :
    ∀ d₁ < 10, ∀ d₂ < 10, Nat.digitChar d₁ = Nat.digitChar d₂ → d₁ = d₂ := by decide

theorem digitChar_ne_comma : ∀ d < 10, Nat.digitChar d ≠ ',' := by decide

theorem digitChar_ne_bar : ∀ d < 10, Nat.digitChar d ≠ '|' := by decide

theorem decRepr_ne_empty (n : Nat) : (decRepr n).data ≠ [] := by
  unfold decRepr
  by_cases h : n = 0
  · simp [h]
  · have : Nat.digits 10 n ≠ [] := Nat.digits_ne_nil_iff_ne_zero.mpr h
    simp only [h, if_false]
    intro hcon
    have := List.map_eq_nil_iff.mp hcon
    rw [List.reverse_eq_nil_iff, decDigits_eq] at this
    exact ‹Nat.digits 10 n ≠ []› this

theorem decRepr_chars (n : Nat) : ∀ c ∈ (decRepr n).data, c ≠ ',' ∧ c ≠ '|' := by
  intro c hc
  unfold decRepr at hc
  by_cases h : n = 0
  · simp [h] at hc
    subst hc
    exact ⟨digitChar_ne_comma 0 (by norm_num), digitChar_ne_bar 0 (by norm_num)⟩
  · simp only [h, if_false, List.mem_map] at hc
    obtain ⟨d, hd, rfl⟩ := hc
    rw [List.mem_reverse] at hd
    have hlt := decDigits_lt_ten n d hd
    exact ⟨digitChar_ne_comma d hlt, digitChar_ne_bar d hlt⟩

theorem decRepr_inj {n m : Nat} (h : decRepr n = decRepr m) : n = m := by
  unfold decRepr at h
  have hdata : (if n = 0 then [0] else (decDigits n).reverse).map Nat.digitChar
      = (if m = 0 then [0] else (decDigits m).reverse).map Nat.digitChar := by
    have := congrArg String.data h
    simpa using this
  have hmap : ∀ l₁ l₂ : List Nat, (∀ d ∈ l₁, d < 10) → (∀ d ∈ l₂, d < 10) →
      l₁.map Nat.digitChar = l₂.map Nat.digitChar → l₁ = l₂ := by
    intro l₁
    induction l₁ with
    | nil => intro l₂ _ _ hmeq; cases l₂ <;> simp_all
    | cons a t ih =>
      intro l₂ h₁ h₂ hmeq
      cases l₂ with
      | nil => simp at hmeq
      | cons b t₂ =>
        simp only [List.map_cons, List.cons.injEq] at hmeq
        have hab : a = b :=
          digitChar_inj_lt_ten a (h₁ a (by simp)) b (h₂ b (by simp)) hmeq.1
        have htt : t = t₂ := ih t₂ (fun d hd => h₁ d (by simp [hd]))
          (fun d hd => h₂ d (by simp [hd])) hmeq.2
        rw [hab, htt]
  have hlt₁ : ∀ d ∈ (if n = 0 then [0] else (decDigits n).reverse), d < 10 := by
    split
    · simp
    · intro d hd; exact decDigits_lt_ten n d (List.mem_reverse.mp hd)
  have hlt₂ : ∀ d ∈ (if m = 0 then [0] else (decDigits m).reverse), d < 10 := by
    split
    · simp
    · intro d hd; exact decDigits_lt_ten m d (List.mem_reverse.mp hd)
  have hlists := hmap _ _ hlt₁ hlt₂ hdata
  by_cases hn : n = 0 <;> by_cases hm : m = 0
  · omega
  · exfalso
    simp only [hn, if_true, hm, if_false] at hlists
    have hm0 : Nat.digits 10 m = [0] := by
      have := congrArg List.reverse hlists
      simpa [decDigits_eq] using this.symm
    have hofd := Nat.ofDigits_digits 10 m
    rw [hm0] at hofd
    simp [Nat.ofDigits] at hofd
    exact hm hofd.symm
  · exfalso
    simp only [hn, if_false, hm, if_true] at hlists
    have hn0 : Nat.digits 10 n = [0] := by
      have := congrArg List.reverse hlists
      simpa [decDigits_eq] using this
    have hofd := Nat.ofDigits_digits 10 n
    rw [hn0] at hofd
    simp [Nat.ofDigits] at hofd
    exact hn hofd.symm
  · simp only [hn, if_false, hm, if_false] at hlists
    have hdig : Nat.digits 10 n = Nat.digits 10 m := by
      have := congrArg List.reverse hlists
      simpa [decDigits_eq] using this
    have := congrArg (Nat.ofDigits 10) hdig
    rwa [Nat.ofDigits_digits, Nat.ofDigits_digits] at this

/-- Comma-joined decimal serialization of an id list, the embedding of the
Go `writeIDs` builder loop (a `,` between consecutive ids). -/
def writeIDs : List Nat → String
  | [] => ""
  | [n] => decRepr n
  | n :: rest => decRepr n ++ "," ++ writeIDs rest

theorem string_data_append (s t : String) : (s ++ t).data = s.data ++ t.data := rfl

theorem string_data_inj {s t : String} (h : s.data = t.data) : s = t := by
  cases s; cases t; exact congrArg String.mk h

/-- Splitting at a separator character is unambiguous when neither prefix
piece contains the separator. -/
theorem append_sep_inj (sep : Char) :
    ∀ (a c b d : List Char), sep ∉ a → sep ∉ c →
      a ++ sep :: b = c ++ sep :: d → a = c ∧ b = d := by
  intro a
  induction a with
  | nil =>
    intro c b d _ hc h
    cases c with
    | nil => simpa using h
    | cons x xs =>
      simp only [List.nil_append, List.cons_append, List.cons.injEq] at h
      exact absurd (h.1 ▸ List.mem_cons_self x xs) hc
  | cons x xs ih =>
    intro c b d ha hc h
    cases c with
    | nil =>
      simp only [List.cons_append, List.nil_append, List.cons.injEq] at h
      exact absurd (h.1 ▸ List.mem_cons_self x xs) ha
    | cons y ys =>
      simp only [List.cons_append, List.cons.injEq] at h
      have hrest := ih ys b d (fun hmem => ha (List.mem_cons_of_mem x hmem))
        (fun hmem => hc (h.1 ▸ List.mem_cons_of_mem y hmem)) h.2
      exact ⟨by rw [h.1, hrest.1], hrest.2⟩

theorem writeIDs_cons_cons (n m : Nat) (rest : List Nat) :
    writeIDs (n :: m :: rest) = decRepr n ++ "," ++ writeIDs (m :: rest) := rfl

theorem comma_data : ("," : String).data = [','] := rfl

theorem writeIDs_data_cons_cons (n m : Nat) (rest : List Nat) :
    (writeIDs (n :: m :: rest)).data = (decRepr n).data ++ ',' :: (writeIDs (m :: rest)).data := by
  rw [writeIDs_cons_cons, string_data_append, string_data_append, comma_data]
  simp

theorem writeIDs_no_bar (l : List Nat) : '|' ∉ (writeIDs l).data := by
  induction l with
  | nil => simp [writeIDs, String.data]
  | cons n rest ih =>
    cases rest with
    | nil =>
      intro hc
      exact (decRepr_chars n '|' hc).2 rfl
    | cons m rest2 =>
      rw [writeIDs_data_cons_cons]
      intro hc
      rcases List.mem_append.mp hc with h1 | h2
      · exact (decRepr_chars n '|' h1).2 rfl
      · rcases List.mem_cons.mp h2 with h3 | h4
        · exact absurd h3 (by decide)
        · exact ih h4

theorem writeIDs_ne_empty (l : List Nat) (h : l ≠ []) : (writeIDs l).data ≠ [] := by
  cases l with
  | nil => exact absurd rfl h
  | cons n rest =>
    cases rest with
    | nil => exact decRepr_ne_empty n
    | cons m rest2 =>
      rw [writeIDs_data_cons_cons]
      intro hcon
      have := List.append_eq_nil.mp hcon
      exact decRepr_ne_empty n this.1

theorem writeIDs_inj : ∀ l₁ l₂ : List Nat, writeIDs l₁ = writeIDs l₂ → l₁ = l₂ := by
  intro l₁
  induction l₁ with
  | nil =>
    intro l₂ h
    cases l₂ with
    | nil => rfl
    | cons m rest =>
      exact absurd (congrArg String.data h).symm (writeIDs_ne_empty (m :: rest) (by simp))
  | cons n rest ih =>
    intro l₂ h
    cases l₂ with
    | nil => exact absurd (congrArg String.data h) (writeIDs_ne_empty (n :: rest) (by simp))
    | cons m rest₂ =>
      cases rest with
      | nil =>
        cases rest₂ with
        | nil => rw [decRepr_inj (h : decRepr n = decRepr m)]
        | cons m₂ r₂ =>
          exfalso
          have hdata := congrArg String.data h
          rw [writeIDs_data_cons_cons] at hdata
          have hmem : ',' ∈ (decRepr n).data := by
            have : ',' ∈ (writeIDs [n]).data := by
              rw [hdata]; exact List.mem_append.mpr (Or.inr (by simp))
            exact this
          exact (decRepr_chars n ',' hmem).1 rfl
      | cons n₂ r₁ =>
        cases rest₂ with
        | nil =>
          exfalso
          have hdata := congrArg String.data h
          rw [writeIDs_data_cons_cons] at hdata
          have hmem : ',' ∈ (decRepr m).data := by
            have : ',' ∈ (writeIDs [m]).data := by
              rw [← hdata]; exact List.mem_append.mpr (Or.inr (by simp))
            exact this
          exact (decRepr_chars m ',' hmem).1 rfl
        | cons m₂ r₂ =>
          have hdata := congrArg String.data h
          rw [writeIDs_data_cons_cons, writeIDs_data_cons_cons] at hdata
          have hsplit := append_sep_inj ',' (decRepr n).data (decRepr m).data
            (writeIDs (n₂ :: r₁)).data (writeIDs (m₂ :: r₂)).data
            (fun hmem => (decRepr_chars n ',' hmem).1 rfl)
            (fun hmem => (decRepr_chars m ',' hmem).1 rfl) hdata
          have h1 : n = m := decRepr_inj (string_data_inj hsplit.1)
          have h2 : n₂ :: r₁ = m₂ :: r₂ := ih (m₂ :: r₂) (string_data_inj hsplit.2)
          rw [h1, h2]

/-- Lexicographic comparison of char lists by code point; since UTF-8 is
order-preserving, this is the embedding of Go's byte-wise `<` on strings. -/
def listLtb : List Char → List Char → Bool
  | [], [] => false
  | [], _ :: _ => true
  | _ :: _, [] => false
  | a :: as, b :: bs =>
    if a.toNat < b.toNat then true
    else if b.toNat < a.toNat then false
    else listLtb as bs

/-- Go's `s < t` on strings (byte-wise lexicographic). -/
def strLt (s t : String) : Bool := listLtb s.data t.data

theorem char_toNat_inj {a b : Char} (h : a.toNat = b.toNat) : a = b := by
  rw [← Char.ofNat_toNat a, ← Char.ofNat_toNat b, h]

theorem listLtb_cons_cons (a b : Char) (as bs : List Char) :
    listLtb (a :: as) (b :: bs)
      = if a.toNat < b.toNat then true
        else if b.toNat < a.toNat then false
        else listLtb as bs := rfl

theorem listLtb_asymm : ∀ l₁ l₂ : List Char, listLtb l₁ l₂ = true → listLtb l₂ l₁ = false := by
  intro l₁
  induction l₁ with
  | nil =>
    intro l₂ h
    cases l₂ with
    | nil => exact absurd h (by simp [listLtb])
    | cons b bs => simp [listLtb]
  | cons a as ih =>
    intro l₂ h
    cases l₂ with
    | nil => exact absurd h (by simp [listLtb])
    | cons b bs =>
      rw [listLtb_cons_cons] at h
      rw [listLtb_cons_cons]
      by_cases hab : a.toNat < b.toNat
      · rw [if_neg (by omega), if_pos hab]
      · rw [if_neg hab] at h
        by_cases hba : b.toNat < a.toNat
        · rw [if_pos hba] at h
          simp at h
        · rw [if_neg hba] at h
          rw [if_neg hba, if_neg hab]
          exact ih bs h

theorem listLtb_both_false : ∀ l₁ l₂ : List Char,
    listLtb l₁ l₂ = false → listLtb l₂ l₁ = false → l₁ = l₂ := by
  intro l₁
  induction l₁ with
  | nil =>
    intro l₂ h1 _
    cases l₂ with
    | nil => rfl
    | cons b bs => simp [listLtb] at h1
  | cons a as ih =>
    intro l₂ h1 h2
    cases l₂ with
    | nil => simp [listLtb] at h2
    | cons b bs =>
      rw [listLtb_cons_cons] at h1
      rw [listLtb_cons_cons] at h2
      by_cases hab : a.toNat < b.toNat
      · rw [if_pos hab] at h1
        simp at h1
      · by_cases hba : b.toNat < a.toNat
        · rw [if_pos hba] at h2
          simp at h2
        · rw [if_neg hab, if_neg hba] at h1
          rw [if_neg hba, if_neg hab] at h2
          have hchar : a = b := char_toNat_inj (by omega)
          rw [hchar, ih bs h1 h2]

theorem strLt_asymm {s t : String} (h : strLt s t = true) : strLt t s = false :=
  listLtb_asymm s.data t.data h

theorem strLt_both_false {s t : String} (h1 : strLt s t = false) (h2 : strLt t s = false) :
    s = t :=
  string_data_inj (listLtb_both_false s.data t.data h1 h2)

/-- The Go unique-pass over a sorted slice: drop an element equal to the
previously kept one (`if j == 0 || v != last`). -/
def uniqueAux (last : Nat) : List Nat → List Nat
  | [] => []
  | y :: ys => if y = last then uniqueAux last ys else y :: uniqueAux y ys

/-- First element always kept, then `uniqueAux`. -/
def uniquePass : List Nat → List Nat
  | [] => []
  | x :: xs => x :: uniqueAux x xs

/-- Option list for one position of `buildExpandedPairMappings`:
the word itself, its tradeouts appended, sorted by id, adjacent
duplicates removed. -/
def optsOf (tradeoutSets : Table) (w : Nat) : List Nat :=
  uniquePass (List.insertionSort (· ≤ ·) (w :: ((tblLookup tradeoutSets w).getD [])))

/-- Reverse lookup of the interner (`Dictionary.GetStr` over `intToStr`). -/
def strOf (dict : List String) (id : Nat) : String := dict.getD id ""

/-- One emitted pair-key: the two token strings ordered lexicographically by
string value, joined with an underscore. -/
def pairKey (dict : List String) (a b : Nat) : String :=
  let str1 := strOf dict a
  let str2 := strOf dict b
  if strLt str2 str1 then str2 ++ "_" ++ str1 else str1 ++ "_" ++ str2

/-- Cartesian product `opts[i] × opts[j]` rendered as pair-keys. -/
def prodStrings (dict : List String) (oi oj : List Nat) : List String :=
  oi.bind (fun a => oj.map (fun b => pairKey dict a b))

/-- Position-pair dedup key: the two id-serializations, lexicographically
smaller first, joined with a bar. -/
def keyOf (oi oj : List Nat) : String :=
  let s1 := writeIDs oi
  let s2 := writeIDs oj
  if strLt s2 s1 then s2 ++ "|" ++ s1 else s1 ++ "|" ++ s2

/-- The nested `i < j` loop of `buildExpandedPairMappings`, with the
`seenPairs` set (modelled as a list of keys) and the accumulated results. -/
def buildLoop (opts : List (List Nat)) (dict : List String) :
    List (Nat × Nat) → List String → List String → List String
  | [], _, results => results
  | p :: rest, seen, results =>
    let oi := opts.getD p.1 []
    let oj := opts.getD p.2 []
    let key := keyOf oi oj
    if key ∈ seen then buildLoop opts dict rest seen results
    else buildLoop opts dict rest (key :: seen) (results ++ prodStrings dict oi oj)

/-- All position pairs `(i, j)` with `i < j < n`, in loop order. -/
def indexPairs (n : Nat) : List (Nat × Nat) :=
  (List.range n).bind (fun i => ((List.range n).filter (fun j => i < j)).map (fun j => (i, j)))

/-- The pair-key builder (`buildExpandedPairMappings` in `main.go`). -/
def buildExpandedPairMappings (parts : List Nat) (tradeoutSets : Table)
    (dict : List String) : List String :=
  let positionOptions := parts.map (optsOf tradeoutSets)
  buildLoop positionOptions dict (indexPairs positionOptions.length) [] []

theorem mem_cons_uniqueAux :
    ∀ (l : List Nat) (last x : Nat), (x = last ∨ x ∈ uniqueAux last l) ↔ (x = last ∨ x ∈ l) := by
  intro l
  induction l with
  | nil => simp [uniqueAux]
  | cons y ys ih =>
    intro last x
    by_cases hy : y = last
    · rw [uniqueAux, if_pos hy, ih last x]
      subst hy
      simp only [List.mem_cons]
      tauto
    · rw [uniqueAux, if_neg hy]
      simp only [List.mem_cons]
      have := ih y x
      tauto

theorem mem_uniquePass (l : List Nat) (x : Nat) : x ∈ uniquePass l ↔ x ∈ l := by
  cases l with
  | nil => simp [uniquePass]
  | cons y ys =>
    rw [uniquePass]
    simp only [List.mem_cons]
    exact mem_cons_uniqueAux ys y x

theorem mem_optsOf (t : Table) (w x : Nat) :
    x ∈ optsOf t w ↔ x = w ∨ x ∈ (tblLookup t w).getD [] := by
  unfold optsOf
  rw [mem_uniquePass, (List.perm_insertionSort (· ≤ ·) _).mem_iff]
  simp

theorem mem_prodStrings (dict : List String) (oi oj : List Nat) (s : String) :
    s ∈ prodStrings dict oi oj ↔ ∃ a ∈ oi, ∃ b ∈ oj, s = pairKey dict a b := by
  simp only [prodStrings, List.mem_bind, List.mem_map]
  constructor
  · rintro ⟨a, ha, b, hb, rfl⟩
    exact ⟨a, ha, b, hb, rfl⟩
  · rintro ⟨a, ha, b, hb, rfl⟩
    exact ⟨a, ha, b, hb, rfl⟩

theorem pairKey_comm (dict : List String) (a b : Nat) :
    pairKey dict a b = pairKey dict b a := by
  unfold pairKey
  dsimp only
  by_cases hab : strLt (strOf dict b) (strOf dict a) = true
  · have hba := strLt_asymm hab
    rw [if_pos hab, if_neg (by rw [hba]; exact Bool.false_ne_true)]
  · simp only [Bool.not_eq_true] at hab
    rw [if_neg (by rw [hab]; exact Bool.false_ne_true)]
    by_cases hba : strLt (strOf dict a) (strOf dict b) = true
    · rw [if_pos hba]
    · simp only [Bool.not_eq_true] at hba
      rw [if_neg (by rw [hba]; exact Bool.false_ne_true), strLt_both_false hba hab]

theorem mem_prodStrings_swap (dict : List String) (oi oj : List Nat) (s : String) :
    s ∈ prodStrings dict oi oj ↔ s ∈ prodStrings dict oj oi := by
  rw [mem_prodStrings, mem_prodStrings]
  constructor
  · rintro ⟨a, ha, b, hb, rfl⟩
    exact ⟨b, hb, a, ha, pairKey_comm dict a b⟩
  · rintro ⟨a, ha, b, hb, rfl⟩
    exact ⟨b, hb, a, ha, pairKey_comm dict a b⟩

theorem writeIDs_bar_inj {a b c d : List Nat}
    (h : writeIDs a ++ "|" ++ writeIDs b = writeIDs c ++ "|" ++ writeIDs d) :
    a = c ∧ b = d := by
  have hdata := congrArg String.data h
  rw [string_data_append, string_data_append, string_data_append, string_data_append] at hdata
  have hbar : ("|" : String).data = ['|'] := rfl
  rw [hbar] at hdata
  simp only [List.append_assoc, List.singleton_append] at hdata
  have hsplit := append_sep_inj '|' _ _ _ _ (writeIDs_no_bar a) (writeIDs_no_bar c) hdata
  exact ⟨writeIDs_inj _ _ (string_data_inj hsplit.1), writeIDs_inj _ _ (string_data_inj hsplit.2)⟩

theorem keyOf_eq_pair {oi oj ok ol : List Nat} (h : keyOf oi oj = keyOf ok ol) :
    (oi = ok ∧ oj = ol) ∨ (oi = ol ∧ oj = ok) := by
  unfold keyOf at h
  dsimp only at h
  split at h <;> split at h
  · rcases writeIDs_bar_inj h with ⟨h1, h2⟩
    exact Or.inl ⟨h2, h1⟩
  · rcases writeIDs_bar_inj h with ⟨h1, h2⟩
    exact Or.inr ⟨h2, h1⟩
  · rcases writeIDs_bar_inj h with ⟨h1, h2⟩
    exact Or.inr ⟨h1, h2⟩
  · rcases writeIDs_bar_inj h with ⟨h1, h2⟩
    exact Or.inl ⟨h1, h2⟩

theorem mem_buildLoop (opts : List (List Nat)) (dict : List String) :
    ∀ (ps : List (Nat × Nat)) (seen results : List String),
      (∀ k ∈ seen, ∃ a b : List Nat, keyOf a b = k ∧
        ∀ s ∈ prodStrings dict a b, s ∈ results) →
      ∀ x, x ∈ buildLoop opts dict ps seen results ↔
        x ∈ results ∨ ∃ p ∈ ps, x ∈ prodStrings dict (opts.getD p.1 []) (opts.getD p.2 []) := by
  intro ps
  induction ps with
  | nil =>
    intro seen results _ x
    simp [buildLoop]
  | cons p rest ih =>
    intro seen results hseen x
    rw [buildLoop]
    by_cases hk : keyOf (opts.getD p.1 []) (opts.getD p.2 []) ∈ seen
    · rw [if_pos hk, ih seen results hseen x]
      simp only [List.mem_cons]
      constructor
      · rintro (hx | ⟨q, hq, hxq⟩)
        · exact Or.inl hx
        · exact Or.inr ⟨q, Or.inr hq, hxq⟩
      · rintro (hx | ⟨q, hq | hq, hxq⟩)
        · exact Or.inl hx
        · subst hq
          obtain ⟨a, b, hab, hsub⟩ := hseen _ hk
          rcases keyOf_eq_pair hab with ⟨rfl, rfl⟩ | ⟨rfl, rfl⟩
          · exact Or.inl (hsub x hxq)
          · exact Or.inl (hsub x ((mem_prodStrings_swap dict _ _ x).mp hxq))
        · exact Or.inr ⟨q, hq, hxq⟩
    · rw [if_neg hk]
      have hseen' : ∀ k ∈ (keyOf (opts.getD p.1 []) (opts.getD p.2 []) :: seen),
          ∃ a b : List Nat, keyOf a b = k ∧ ∀ s ∈ prodStrings dict a b,
            s ∈ results ++ prodStrings dict (opts.getD p.1 []) (opts.getD p.2 []) := by
        intro k hkmem
        rcases List.mem_cons.mp hkmem with rfl | hkmem
        · exact ⟨_, _, rfl, fun s hs => List.mem_append.mpr (Or.inr hs)⟩
        · obtain ⟨a, b, hab, hsub⟩ := hseen k hkmem
          exact ⟨a, b, hab, fun s hs => List.mem_append.mpr (Or.inl (hsub s hs))⟩
      rw [ih _ _ hseen' x]
      simp only [List.mem_append, List.mem_cons]
      constructor
      · rintro ((hx | hx) | ⟨q, hq, hxq⟩)
        · exact Or.inl hx
        · exact Or.inr ⟨p, Or.inl rfl, hx⟩
        · exact Or.inr ⟨q, Or.inr hq, hxq⟩
      · rintro (hx | ⟨q, hq | hq, hxq⟩)
        · exact Or.inl (Or.inl hx)
        · subst hq
          exact Or.inl (Or.inr hxq)
        · exact Or.inr ⟨q, hq, hxq⟩

theorem mem_indexPairs (n : Nat) (p : Nat × Nat) :
    p ∈ indexPairs n ↔ p.1 < p.2 ∧ p.2 < n := by
  obtain ⟨i, j⟩ := p
  simp only [indexPairs, List.mem_bind, List.mem_map, List.mem_filter, List.mem_range]
  constructor
  · rintro ⟨i', hi', j', ⟨hj', hlt⟩, heq⟩
    obtain ⟨rfl, rfl⟩ := Prod.mk.injEq .. ▸ heq
    exact ⟨by simpa using hlt, by simpa using hj'⟩
  · rintro ⟨hij, hjn⟩
    exact ⟨i, lt_trans hij hjn, j, ⟨hjn, by simpa using hij⟩, rfl⟩

theorem getD_map_opts (t : Table) (parts : List Nat) (i : Nat) (h : i < parts.length) :
    (parts.map (optsOf t)).getD i [] = optsOf t (parts.getD i 0) := by
  rw [List.getD_eq_getElem?_getD, List.getD_eq_getElem?_getD, List.getElem?_map,
    List.getElem?_eq_getElem h]
  rfl

theorem mem_buildExpandedPairMappings (parts : List Nat) (t : Table) (dict : List String)
    (s : String) :
    s ∈ buildExpandedPairMappings parts t dict ↔
      ∃ i j, i < j ∧ j < parts.length ∧ ∃ a b,
        a ∈ optsOf t (parts.getD i 0) ∧ b ∈ optsOf t (parts.getD j 0) ∧
        s = pairKey dict a b := by
  unfold buildExpandedPairMappings
  rw [mem_buildLoop _ dict _ [] [] (by simp) s]
  simp only [List.not_mem_nil, false_or, List.length_map]
  constructor
  · rintro ⟨⟨i, j⟩, hp, hs⟩
    rw [mem_indexPairs] at hp
    rw [getD_map_opts t parts i (lt_trans hp.1 hp.2), getD_map_opts t parts j hp.2,
      mem_prodStrings] at hs
    obtain ⟨a, ha, b, hb, rfl⟩ := hs
    exact ⟨i, j, hp.1, hp.2, a, b, ha, hb, rfl⟩
  · rintro ⟨i, j, hij, hjn, a, b, ha, hb, rfl⟩
    refine ⟨(i, j), (mem_indexPairs _ _).mpr ⟨hij, hjn⟩, ?_⟩
    rw [getD_map_opts t parts i (lt_trans hij hjn), getD_map_opts t parts j hjn,
      mem_prodStrings]
    exact ⟨a, ha, b, hb, rfl⟩

/-- Stamp every id of `ms` (in bounds) with generation `g`; the inner loop of
the validator's marking phases (`matchesBuffer[matchID] = gen` behind the
bounds check). -/
def stampList (g : Nat) (buf : List Nat) (ms : List Nat) : List Nat :=
  ms.foldl (fun b m => if m < b.length then b.set m g else b) buf

/-- One marking phase of `validateOptimized`: for each token of `parts`,
stamp its `wordToMatches` list if present (an absent entry stamps nothing —
the Go loop has no else branch). -/
def markPhase (w2m : Table) (parts : List Nat) (g : Nat) (buf : List Nat) : List Nat :=
  parts.foldl (fun b w =>
    match tblLookup w2m w with
    | some ms => stampList g b ms
    | none => b) buf

/-- The mismatch-counting walk of one phase: left-to-right over `parts`,
skipping a token equal to an earlier one (`seenSoFar` is the already-walked
prefix), counting a mismatch when the buffer cell does not hold `g`
(`buf.get? w = none` is the Go out-of-range else branch). -/
def countMismatches (buf : List Nat) (g : Nat) : List Nat → List Nat → Nat
  | [], _ => 0
  | w :: rest, seenSoFar =>
    (if seenSoFar.contains w then 0
     else if buf.get? w = some g then 0 else 1) + countMismatches buf g rest (seenSoFar ++ [w])

/-- The validator (`validateOptimized` in `main.go`).  Returns the decision
and the scratch buffer as left by the two marking phases (the Go function
mutates the caller's buffer in place). -/
def validateOptimized (partsA partsB : List Nat) (wordToMatches : Table)
    (matchesBuffer : List Nat) (gen : Nat) : Bool × List Nat :=
  let lenA := partsA.length
  let lenB := partsB.length
  let buf1 := markPhase wordToMatches partsB gen matchesBuffer
  let mismatchesA := countMismatches buf1 gen partsA []
  let gen2 := gen + 1
  let buf2 := markPhase wordToMatches partsA gen2 buf1
  let mismatchesB := countMismatches buf2 gen2 partsB []
  let decision : Bool :=
    if lenB = 3 ∧ 0 < mismatchesB ∧ 3 ≤ lenA then false
    else if lenA = 3 ∧ 0 < mismatchesA ∧ 3 ≤ lenB then false
    else if ((lenA : Int) - mismatchesA < 2) ∨ ((lenB : Int) - mismatchesB < 2) then false
    else true
  (decision, buf2)

/-- Everything stamped when marking from `parts`: the union of the
equivalence lists of `parts`' tokens that are present in the table. -/
def closureKeys (w2m : Table) (parts : List Nat) : List Nat :=
  parts.bind (fun w => (tblLookup w2m w).getD [])

/-- Specification-level mismatch count: the number of distinct tokens of
`q` not stamped by `p`'s equivalence closure. -/
def specMismatches (w2m : Table) (q p : List Nat) : Nat :=
  (q.toFinset.filter (fun a => a ∉ closureKeys w2m p)).card

theorem stampList_length (g : Nat) (ms : List Nat) :
    ∀ buf : List Nat, (stampList g buf ms).length = buf.length := by
  induction ms with
  | nil => intro buf; rfl
  | cons m rest ih =>
    intro buf
    rw [stampList, List.foldl_cons]
    have : (stampList g (if m < buf.length then buf.set m g else buf) rest).length
        = (if m < buf.length then buf.set m g else buf).length := ih _
    rw [stampList] at this
    rw [this]
    split <;> simp

theorem markPhase_cons (w2m : Table) (w : Nat) (rest : List Nat) (g : Nat) (buf : List Nat) :
    markPhase w2m (w :: rest) g buf = markPhase w2m rest g
      (match tblLookup w2m w with
       | some ms => stampList g buf ms
       | none => buf) := rfl

theorem markPhase_length (w2m : Table) (parts : List Nat) (g : Nat) :
    ∀ buf : List Nat, (markPhase w2m parts g buf).length = buf.length := by
  induction parts with
  | nil => intro buf; rfl
  | cons w rest ih =>
    intro buf
    rw [markPhase_cons]
    cases tblLookup w2m w with
    | none => exact ih buf
    | some ms => rw [ih, stampList_length]

theorem stampList_get? (g : Nat) (ms : List Nat) :
    ∀ (buf : List Nat) (x : Nat), (stampList g buf ms).get? x =
      if x ∈ ms ∧ x < buf.length then some g else buf.get? x := by
  induction ms with
  | nil =>
    intro buf x
    simp [stampList]
  | cons m rest ih =>
    intro buf x
    rw [stampList, List.foldl_cons, ← stampList, ih]
    by_cases hm : m < buf.length
    · rw [if_pos hm]
      by_cases hxr : x ∈ rest ∧ x < (buf.set m g).length
      · rw [if_pos hxr, if_pos ⟨List.mem_cons_of_mem m hxr.1, by simpa using hxr.2⟩]
      · rw [if_neg hxr]
        by_cases hxm : x = m
        · subst hxm
          rw [List.get?_set_eq_of_lt g hm, if_pos ⟨List.mem_cons_self x rest, hm⟩]
        · rw [List.get?_set_ne _ _ (fun h => hxm h.symm)]
          have : ¬(x ∈ m :: rest ∧ x < buf.length) := by
            rintro ⟨hmem, hlt⟩
            rcases List.mem_cons.mp hmem with h | h
            · exact hxm h
            · exact hxr ⟨h, by simpa using hlt⟩
          rw [if_neg this]
    · rw [if_neg hm]
      by_cases hxr : x ∈ rest ∧ x < buf.length
      · rw [if_pos hxr, if_pos ⟨List.mem_cons_of_mem m hxr.1, hxr.2⟩]
      · rw [if_neg hxr]
        by_cases hx : x ∈ m :: rest ∧ x < buf.length
        · rcases List.mem_cons.mp hx.1 with h | h
          · subst h
            exact absurd hx.2 hm
          · exact absurd ⟨h, hx.2⟩ hxr
        · rw [if_neg hx]

theorem markPhase_get? (w2m : Table) (parts : List Nat) (g : Nat) :
    ∀ (buf : List Nat) (x : Nat), (markPhase w2m parts g buf).get? x =
      if x ∈ closureKeys w2m parts ∧ x < buf.length then some g else buf.get? x := by
  induction parts with
  | nil =>
    intro buf x
    simp [markPhase, closureKeys]
  | cons w rest ih =>
    intro buf x
    rw [markPhase, List.foldl_cons, ← markPhase]
    have hcl : closureKeys w2m (w :: rest)
        = (tblLookup w2m w).getD [] ++ closureKeys w2m rest := by
      simp [closureKeys]
    cases hlk : tblLookup w2m w with
    | none =>
      rw [ih buf x, hcl, hlk]
      simp
    | some ms =>
      rw [ih _ x, stampList_get? g ms buf x, stampList_length, hcl, hlk]
      simp only [Option.getD_some, List.mem_append]
      by_cases hr : x ∈ closureKeys w2m rest ∧ x < buf.length
      · rw [if_pos hr, if_pos ⟨Or.inr hr.1, hr.2⟩]
      · rw [if_neg hr]
        by_cases hm : x ∈ ms ∧ x < buf.length
        · rw [if_pos hm, if_pos ⟨Or.inl hm.1, hm.2⟩]
        · rw [if_neg hm]
          by_cases hx : (x ∈ ms ∨ x ∈ closureKeys w2m rest) ∧ x < buf.length
          · rcases hx.1 with h | h
            · exact absurd ⟨h, hx.2⟩ hm
            · exact absurd ⟨h, hx.2⟩ hr
          · rw [if_neg hx]

theorem countMism_eq (buf : List Nat) (g : Nat) :
    ∀ (parts seenSoFar : List Nat),
      countMismatches buf g parts seenSoFar =
        ((parts.toFinset \ seenSoFar.toFinset).filter
          (fun w => buf.get? w ≠ some g)).card := by
  intro parts
  induction parts with
  | nil =>
    intro seenSoFar
    simp [countMismatches]
  | cons w rest ih =>
    intro seenSoFar
    rw [countMismatches, ih]
    have happ : (seenSoFar ++ [w]).toFinset = insert w seenSoFar.toFinset := by
      ext x
      simp [or_comm]
    rw [happ]
    by_cases hws : w ∈ seenSoFar
    · rw [if_pos (by simpa using hws)]
      have h1 : insert w seenSoFar.toFinset = seenSoFar.toFinset :=
        Finset.insert_eq_self.mpr (by simpa using hws)
      have h2 : (w :: rest).toFinset \ seenSoFar.toFinset
          = rest.toFinset \ seenSoFar.toFinset := by
        rw [List.toFinset_cons]
        exact Finset.insert_sdiff_of_mem _ (by simpa using hws)
      rw [h1, h2, Nat.zero_add]
    · rw [if_neg (by simpa using hws)]
      have h2 : (w :: rest).toFinset \ seenSoFar.toFinset
          = insert w (rest.toFinset \ seenSoFar.toFinset) := by
        rw [List.toFinset_cons]
        exact Finset.insert_sdiff_of_not_mem _ (by simpa using hws)
      have h3 : rest.toFinset \ insert w seenSoFar.toFinset
          = (rest.toFinset \ seenSoFar.toFinset).erase w := by
        rw [Finset.sdiff_insert]
      rw [h2, h3, Finset.filter_insert, Finset.filter_erase]
      set T := (rest.toFinset \ seenSoFar.toFinset).filter
        (fun w => buf.get? w ≠ some g) with hT
      by_cases hp : buf.get? w ≠ some g
      · rw [if_neg hp, if_pos hp]
        by_cases hwT : w ∈ T
        · rw [Finset.insert_eq_self.mpr hwT]
          have hcard := Finset.card_erase_of_mem hwT
          have hpos : 0 < T.card := Finset.card_pos.mpr ⟨w, hwT⟩
          omega
        · rw [Finset.erase_eq_of_not_mem hwT, Finset.card_insert_of_not_mem hwT]
          omega
      · have hp2 : buf.get? w = some g := of_not_not hp
        rw [if_pos hp2, if_neg hp]
        have hwT : w ∉ T := by
          intro hmem
          exact hp (by simpa [hT] using (Finset.mem_filter.mp hmem).2)
        rw [Finset.erase_eq_of_not_mem hwT, Nat.zero_add]

theorem stampList_cons (g : Nat) (buf : List Nat) (m : Nat) (rest : List Nat) :
    stampList g buf (m :: rest)
      = stampList g (if m < buf.length then buf.set m g else buf) rest := rfl

theorem stampList_mem (g : Nat) (ms : List Nat) :
    ∀ (buf : List Nat) (v : Nat), v ∈ stampList g buf ms → v ∈ buf ∨ v = g := by
  induction ms with
  | nil => intro buf v hv; exact Or.inl hv
  | cons m rest ih =>
    intro buf v hv
    rw [stampList_cons] at hv
    rcases ih _ v hv with hmem | rfl
    · split at hmem
      · rcases List.mem_or_eq_of_mem_set hmem with h | rfl
        · exact Or.inl h
        · exact Or.inr rfl
      · exact Or.inl hmem
    · exact Or.inr rfl

theorem markPhase_mem (w2m : Table) (parts : List Nat) (g : Nat) :
    ∀ (buf : List Nat) (v : Nat), v ∈ markPhase w2m parts g buf → v ∈ buf ∨ v = g := by
  induction parts with
  | nil => intro buf v hv; exact Or.inl hv
  | cons w rest ih =>
    intro buf v hv
    rw [markPhase_cons] at hv
    rcases ih _ v hv with hmem | rfl
    · cases htb : tblLookup w2m w with
      | none => rw [htb] at hmem; exact Or.inl hmem
      | some ms =>
        rw [htb] at hmem
        exact stampList_mem g ms buf v hmem
    · exact Or.inr rfl

theorem count_mark_spec (w2m : Table) (p q : List Nat) (buf : List Nat) (g : Nat)
    (hq : ∀ a ∈ q, a < buf.length) (hbuf : ∀ v ∈ buf, v ≠ g) :
    countMismatches (markPhase w2m p g buf) g q [] = specMismatches w2m q p := by
  rw [countMism_eq]
  simp only [List.toFinset_nil, Finset.sdiff_empty]
  unfold specMismatches
  apply congrArg Finset.card
  apply Finset.filter_congr
  intro a ha
  rw [List.mem_toFinset] at ha
  have halen := hq a ha
  rw [markPhase_get?]
  by_cases hc : a ∈ closureKeys w2m p
  · rw [if_pos ⟨hc, halen⟩]
    simp [hc]
  · rw [if_neg (fun hcon => hc hcon.1)]
    have hsome : buf.get? a = some (buf.get ⟨a, halen⟩) := List.get?_eq_get halen
    have hvmem : buf.get ⟨a, halen⟩ ∈ buf := List.get_mem buf a halen
    rw [hsome]
    simp only [ne_eq, Option.some.injEq]
    constructor
    · intro _
      exact hc
    · intro _
      exact fun hcon => hbuf _ hvmem hcon

/-- Under normal operation (all token ids within the buffer, every stale
stamp below the fresh generation), the validator's decision equals the
specification predicate built from the set-based mismatch counters. -/
theorem validateOptimized_spec (A B : List Nat) (w2m : Table) (buf : List Nat) (g : Nat)
    (hA : ∀ a ∈ A, a < buf.length) (hB : ∀ b ∈ B, b < buf.length)
    (hbuf : ∀ v ∈ buf, v < g) :
    ((validateOptimized A B w2m buf g).1 = true ↔
      (¬(B.length = 3 ∧ 0 < specMismatches w2m B A ∧ 3 ≤ A.length) ∧
       ¬(A.length = 3 ∧ 0 < specMismatches w2m A B ∧ 3 ≤ B.length) ∧
       ¬(((A.length : Int) - specMismatches w2m A B < 2) ∨
         ((B.length : Int) - specMismatches w2m B A < 2)))) := by
  have hmmA : countMismatches (markPhase w2m B g buf) g A [] = specMismatches w2m A B :=
    count_mark_spec w2m B A buf g hA (fun v hv => Nat.ne_of_lt (hbuf v hv))
  have hlen1 : (markPhase w2m B g buf).length = buf.length := markPhase_length w2m B g buf
  have hbuf1 : ∀ v ∈ markPhase w2m B g buf, v ≠ g + 1 := by
    intro v hv
    rcases markPhase_mem w2m B g buf v hv with hmem | rfl
    · exact Nat.ne_of_lt (lt_trans (hbuf v hmem) (Nat.lt_succ_self g))
    · exact Nat.ne_of_lt (Nat.lt_succ_self v)
  have hmmB : countMismatches (markPhase w2m A (g + 1) (markPhase w2m B g buf)) (g + 1) B []
      = specMismatches w2m B A :=
    count_mark_spec w2m A B (markPhase w2m B g buf) (g + 1)
      (fun b hb => hlen1 ▸ hB b hb) hbuf1
  unfold validateOptimized
  dsimp only
  rw [hmmA, hmmB]
  split_ifs with h1 h2 h3
  · simp only [Bool.false_eq_true, false_iff]
    tauto
  · simp only [Bool.false_eq_true, false_iff]
    tauto
  · simp only [Bool.false_eq_true, false_iff]
    tauto
  · simp only [true_iff]
    tauto

/-- C1: the validator accepts exactly when none of the reject rules R1, R2,
R3 hold, with `mismatchA` the number of distinct tokens of `A` not stamped
by `B`'s equivalence closure (and symmetrically); in particular every
accepted pair has `matchA ≥ 2 ∧ matchB ≥ 2`, and an accepted pair with
`|A| = 3 ∧ |B| ≥ 3` has `mismatchA = 0`. -/
theorem validator_reject_rules (A B : List Nat) (w2m : Table) (buf : List Nat) (g : Nat)
    (hA : ∀ a ∈ A, a < buf.length) (hB : ∀ b ∈ B, b < buf.length)
    (hbuf : ∀ v ∈ buf, v < g) :
    ((validateOptimized A B w2m buf g).1 = true ↔
      (¬(B.length = 3 ∧ 0 < specMismatches w2m B A ∧ 3 ≤ A.length) ∧
       ¬(A.length = 3 ∧ 0 < specMismatches w2m A B ∧ 3 ≤ B.length) ∧
       ¬(((A.length : Int) - specMismatches w2m A B < 2) ∨
         ((B.length : Int) - specMismatches w2m B A < 2)))) ∧
    ((validateOptimized A B w2m buf g).1 = true →
      2 ≤ (A.length : Int) - specMismatches w2m A B ∧
      2 ≤ (B.length : Int) - specMismatches w2m B A) ∧
    ((validateOptimized A B w2m buf g).1 = true → A.length = 3 → 3 ≤ B.length →
      specMismatches w2m A B = 0) := by
  have hspec := validateOptimized_spec A B w2m buf g hA hB hbuf
  refine ⟨hspec, ?_, ?_⟩
  · intro hacc
    have h := hspec.mp hacc
    omega
  · intro hacc h3 hB3
    have h := hspec.mp hacc
    omega

/-- C5: the validator's decision is symmetric in its two name arguments,
each call run with a fresh generation over a worker scratch buffer holding
only stale stamps. -/
theorem validator_commutative (w2m : Table) (x y : List Nat)
    (buf buf' : List Nat) (g g' : Nat)
    (hlen : buf'.length = buf.length)
    (hx : ∀ a ∈ x, a < buf.length) (hy : ∀ b ∈ y, b < buf.length)
    (hbuf : ∀ v ∈ buf, v < g) (hbuf' : ∀ v ∈ buf', v < g') :
    (validateOptimized x y w2m buf g).1 = (validateOptimized y x w2m buf' g').1 := by
  have h1 := validateOptimized_spec x y w2m buf g hx hy hbuf
  have h2 := validateOptimized_spec y x w2m buf' g'
    (fun b hb => hlen ▸ hy b hb) (fun a ha => hlen ▸ hx a ha) hbuf'
  cases hv1 : (validateOptimized x y w2m buf g).1 <;>
    cases hv2 : (validateOptimized y x w2m buf' g').1
  · rfl
  · exfalso
    rw [hv1] at h1
    rw [hv2] at h2
    have hd2 := h2.mp rfl
    have := h1.mpr ⟨hd2.2.1, hd2.1, fun hcon => hd2.2.2 (Or.symm hcon)⟩
    simp at this
  · exfalso
    rw [hv1] at h1
    rw [hv2] at h2
    have hd1 := h1.mp rfl
    have := h2.mpr ⟨hd1.2.1, hd1.1, fun hcon => hd1.2.2 (Or.symm hcon)⟩
    simp at this
  · rfl

/-- Per-worker mutable state of `processBatch`: the presence buffer, the
generation counter, the per-name dedup set, and the lines written to the
worker's file.  `calls` is a ghost counter of validator invocations, added
only to state the generation-accounting invariant. -/
structure WState where
  buf : List Nat
  gen : Nat
  calls : Nat
  seenMatches : List String
  out : List String

/-- The immutable `ProcessedData` bundle shared by all workers. -/
structure ProcData where
  nameWords : List (String × List Nat)
  wordToMatches : Table
  tradeoutSets : Table
  pairToNames : List (String × List String)
  dict : List String

/-- The formatted output line `("n1", "n2")`. -/
def mkMatchStr (n1 n2 : String) : String :=
  "(\"" ++ n1 ++ "\", \"" ++ n2 ++ "\")"

/-- Canonicalization `n1, n2 := name, other; if n1 > n2 swap`. -/
def canonPair (name other : String) : String × String :=
  if strLt other name then (other, name) else (name, other)

/-- The body of the inner `for _, other := range otherNames` loop of
`processBatch`: skip self, canonicalize the pair, advance the generation by
two, validate, and emit the line if accepted and not yet seen for the
current input name. -/
def processOther (data : ProcData) (name : String) (st : WState) (other : String) : WState :=
  if other = name then st
  else
    let p := canonPair name other
    let ids1 := (tblLookup data.nameWords p.1).getD []
    let ids2 := (tblLookup data.nameWords p.2).getD []
    let g := st.gen + 2
    let r := validateOptimized ids1 ids2 data.wordToMatches st.buf g
    let st1 : WState := { st with buf := r.2, gen := g, calls := st.calls + 1 }
    if r.1 then
      let m := mkMatchStr p.1 p.2
      if m ∈ st1.seenMatches then st1
      else { st1 with seenMatches := m :: st1.seenMatches, out := st1.out ++ [m] }
    else st1

/-- The `for _, pairStr := range pairs` loop body: look the probe key up in
the inverted index and walk the candidate names. -/
def processPairKey (data : ProcData) (name : String) (st : WState) (pairStr : String) :
    WState :=
  match tblLookup data.pairToNames pairStr with
  | none => st
  | some otherNames => otherNames.foldl (processOther data name) st

/-- Processing of one input name: skip 1-token names, clear the per-name
`seenMatches` set, build the probe keys and walk them. -/
def processName (data : ProcData) (st : WState) (name : String) : WState :=
  let ids := (tblLookup data.nameWords name).getD []
  if ids.length < 2 then st
  else
    let st1 : WState := { st with seenMatches := [] }
    let pairs := buildExpandedPairMappings ids data.tradeoutSets data.dict
    pairs.foldl (processPairKey data name) st1

/-- A worker's initial state: zeroed presence buffer of the dictionary size,
generation counter at 10. -/
def initState (dictSize : Nat) : WState :=
  ⟨List.replicate dictSize 0, 10, 0, [], []⟩

/-- One worker's whole run (`processBatch` in `main.go`) over its job list. -/
def processBatch (data : ProcData) (jobs : List String) (dictSize : Nat) : WState :=
  jobs.foldl (processName data) (initState dictSize)

theorem foldl_preserve {α β : Type} (P : α → Prop) (f : α → β → α) :
    ∀ (l : List β) (s : α), (∀ a b, P a → P (f a b)) → P s → P (List.foldl f s l) := by
  intro l
  induction l with
  | nil => intro s _ hs; exact hs
  | cons x xs ih => intro s hstep hs; exact ih _ hstep (hstep s x hs)

/-- The buffer left by a validator call: phase-2 marking over phase-1
marking. -/
theorem validateOptimized_snd (A B : List Nat) (w2m : Table) (buf : List Nat) (g : Nat) :
    (validateOptimized A B w2m buf g).2
      = markPhase w2m A (g + 1) (markPhase w2m B g buf) := rfl

theorem canonPair_spec (name other : String) (h : other ≠ name) :
    strLt (canonPair name other).1 (canonPair name other).2 = true ∧
    (canonPair name other).1 ≠ (canonPair name other).2 := by
  unfold canonPair
  by_cases hc : strLt other name = true
  · rw [if_pos hc]
    exact ⟨hc, h⟩
  · simp only [Bool.not_eq_true] at hc
    rw [if_neg (by rw [hc]; exact Bool.false_ne_true)]
    cases hno : strLt name other with
    | false => exact absurd (strLt_both_false hno hc).symm h
    | true => exact ⟨rfl, fun he => h he.symm⟩

/-- A well-formed output line: a canonically ordered pair of distinct names. -/
def WFLine (l : String) : Prop :=
  ∃ n1 n2 : String, l = mkMatchStr n1 n2 ∧ strLt n1 n2 = true ∧ n1 ≠ n2

theorem processOther_wf (data : ProcData) (name : String) :
    ∀ (st : WState) (other : String), (∀ l ∈ st.out, WFLine l) →
      ∀ l ∈ (processOther data name st other).out, WFLine l := by
  intro st other h
  unfold processOther
  by_cases hself : other = name
  · rw [if_pos hself]
    exact h
  · rw [if_neg hself]
    dsimp only
    split
    · split
      · exact h
      · intro l hl
        rcases List.mem_append.mp hl with hl | hl
        · exact h l hl
        · have hlm : l = mkMatchStr (canonPair name other).1 (canonPair name other).2 := by
            simpa using hl
          obtain ⟨hlt, hne⟩ := canonPair_spec name other hself
          exact ⟨_, _, hlm, hlt, hne⟩
    · exact h

theorem processPairKey_wf (data : ProcData) (name : String) :
    ∀ (st : WState) (pairStr : String), (∀ l ∈ st.out, WFLine l) →
      ∀ l ∈ (processPairKey data name st pairStr).out, WFLine l := by
  intro st pairStr h
  unfold processPairKey
  cases tblLookup data.pairToNames pairStr with
  | none => exact h
  | some otherNames =>
    exact foldl_preserve (fun s => ∀ l ∈ s.out, WFLine l) (processOther data name)
      otherNames st (fun a b ha => processOther_wf data name a b ha) h

theorem processName_wf (data : ProcData) :
    ∀ (st : WState) (name : String), (∀ l ∈ st.out, WFLine l) →
      ∀ l ∈ (processName data st name).out, WFLine l := by
  intro st name h
  unfold processName
  dsimp only
  split
  · exact h
  · exact foldl_preserve (fun s => ∀ l ∈ s.out, WFLine l) (processPairKey data name)
      _ { st with seenMatches := [] } (fun a b ha => processPairKey_wf data name a b ha) h

/-- C8: every line a worker writes is `("n1", "n2")` with `n1 < n2`
byte-wise; in particular a name is never paired with itself. -/
theorem output_canonical_order (data : ProcData) (jobs : List String) (dictSize : Nat) :
    ∀ l ∈ (processBatch data jobs dictSize).out,
      ∃ n1 n2 : String, l = mkMatchStr n1 n2 ∧ strLt n1 n2 = true ∧ n1 ≠ n2 := by
  unfold processBatch
  exact foldl_preserve (fun s => ∀ l ∈ s.out, WFLine l) (processName data) jobs
    (initState dictSize) (fun a b ha => processName_wf data a b ha)
    (by intro l hl; simp [initState] at hl)

/-- The per-name dedup invariant: the lines appended since the start of the
current input name are pairwise distinct and all recorded in `seenMatches`. -/
def NameInv (base : List String) (st : WState) : Prop :=
  ∃ delta, st.out = base ++ delta ∧ delta.Nodup ∧ ∀ l ∈ delta, l ∈ st.seenMatches

theorem processOther_nameInv (data : ProcData) (name : String) (base : List String) :
    ∀ (st : WState) (other : String), NameInv base st →
      NameInv base (processOther data name st other) := by
  rintro st other ⟨delta, hout, hnd, hsub⟩
  unfold processOther
  by_cases hself : other = name
  · rw [if_pos hself]
    exact ⟨delta, hout, hnd, hsub⟩
  · rw [if_neg hself]
    dsimp only
    split
    · split
      · exact ⟨delta, hout, hnd, hsub⟩
      · rename_i hnotseen
        refine ⟨delta ++ [mkMatchStr (canonPair name other).1 (canonPair name other).2],
          ?_, ?_, ?_⟩
        · rw [hout, List.append_assoc]
        · rw [List.nodup_append]
          refine ⟨hnd, List.nodup_singleton _, ?_⟩
          intro a ha hmem
          have : a = mkMatchStr (canonPair name other).1 (canonPair name other).2 := by
            simpa using hmem
          exact hnotseen (this ▸ hsub a ha)
        · intro l hl
          rcases List.mem_append.mp hl with hl | hl
          · exact List.mem_cons_of_mem _ (hsub l hl)
          · exact List.mem_cons.mpr (Or.inl (by simpa using hl))
    · exact ⟨delta, hout, hnd, hsub⟩

theorem processPairKey_nameInv (data : ProcData) (name : String) (base : List String) :
    ∀ (st : WState) (pairStr : String), NameInv base st →
      NameInv base (processPairKey data name st pairStr) := by
  intro st pairStr h
  unfold processPairKey
  cases tblLookup data.pairToNames pairStr with
  | none => exact h
  | some otherNames =>
    exact foldl_preserve (NameInv base) (processOther data name) otherNames st
      (fun a b ha => processOther_nameInv data name base a b ha) h

/-- C3 (amended): the block of lines one input name appends to the worker's
output contains no duplicate — the per-worker `seenMatches` set is cleared
per input name, so dedup holds only within a single name's processing. -/
theorem pair_dedup_per_name (data : ProcData) (st : WState) (name : String) :
    ∃ delta, (processName data st name).out = st.out ++ delta ∧ delta.Nodup := by
  unfold processName
  dsimp only
  split
  · exact ⟨[], by simp⟩
  · have hinv : NameInv st.out
        (List.foldl (processPairKey data name) { st with seenMatches := [] }
          (buildExpandedPairMappings ((tblLookup data.nameWords name).getD [])
            data.tradeoutSets data.dict)) :=
      foldl_preserve (NameInv st.out) (processPairKey data name) _
        { st with seenMatches := [] }
        (fun a b ha => processPairKey_nameInv data name st.out a b ha)
        ⟨[], by simp, List.nodup_nil, by simp⟩
    obtain ⟨delta, hout, hnd, _⟩ := hinv
    exact ⟨delta, hout, hnd⟩

/-- The generation-accounting invariant of a worker's state: every stamp in
the buffer is below the next call's phase-1 generation, and the counter is
10 plus twice the number of validator calls made. -/
def GInv (st : WState) : Prop :=
  (∀ v ∈ st.buf, v < st.gen + 2) ∧ st.gen = 10 + 2 * st.calls

theorem validate_buf_bound (A B : List Nat) (w2m : Table) (buf : List Nat) (g : Nat)
    (h : ∀ v ∈ buf, v < g) : ∀ v ∈ (validateOptimized A B w2m buf g).2, v < g + 2 := by
  intro v hv
  rw [validateOptimized_snd] at hv
  rcases markPhase_mem _ _ _ _ v hv with hv1 | rfl
  · rcases markPhase_mem _ _ _ _ v hv1 with hv2 | rfl
    · exact lt_trans (h v hv2) (by omega)
    · omega
  · omega

theorem processOther_gInv (data : ProcData) (name : String) :
    ∀ (st : WState) (other : String), GInv st → GInv (processOther data name st other) := by
  rintro st other ⟨hbuf, hacct⟩
  unfold processOther
  by_cases hself : other = name
  · rw [if_pos hself]
    exact ⟨hbuf, hacct⟩
  · rw [if_neg hself]
    dsimp only
    have hstep : ∀ v ∈ (validateOptimized
        ((tblLookup data.nameWords (canonPair name other).1).getD [])
        ((tblLookup data.nameWords (canonPair name other).2).getD [])
        data.wordToMatches st.buf (st.gen + 2)).2, v < st.gen + 2 + 2 :=
      validate_buf_bound _ _ _ _ _ hbuf
    split
    · split
      · exact ⟨hstep, by
          show st.gen + 2 = 10 + 2 * (st.calls + 1)
          omega⟩
      · exact ⟨hstep, by
          show st.gen + 2 = 10 + 2 * (st.calls + 1)
          omega⟩
    · exact ⟨hstep, by
        show st.gen + 2 = 10 + 2 * (st.calls + 1)
        omega⟩

theorem processPairKey_gInv (data : ProcData) (name : String) :
    ∀ (st : WState) (pairStr : String), GInv st → GInv (processPairKey data name st pairStr) := by
  intro st pairStr h
  unfold processPairKey
  cases tblLookup data.pairToNames pairStr with
  | none => exact h
  | some otherNames =>
    exact foldl_preserve GInv (processOther data name) otherNames st
      (fun a b ha => processOther_gInv data name a b ha) h

theorem processName_gInv (data : ProcData) :
    ∀ (st : WState) (name : String), GInv st → GInv (processName data st name) := by
  intro st name h
  unfold processName
  dsimp only
  split
  · exact h
  · exact foldl_preserve GInv (processPairKey data name) _ { st with seenMatches := [] }
      (fun a b ha => processPairKey_gInv data name a b ha) ⟨h.1, h.2⟩

theorem processBatch_gInv (data : ProcData) (jobs : List String) (dictSize : Nat) :
    GInv (processBatch data jobs dictSize) := by
  unfold processBatch
  refine foldl_preserve GInv (processName data) jobs (initState dictSize)
    (fun a b ha => processName_gInv data a b ha) ⟨?_, rfl⟩
  intro v hv
  have : v = 0 := List.eq_of_mem_replicate hv
  omega

/-- C7: generation isolation.  After any number of validator calls the
worker state satisfies `gen = 10 + 2·calls` (start at 10, advance by exactly
2 per call, so the zero-initialized buffer and all prior stamps stay below
the next call's generations), and within a call a cell holds a phase's
generation iff it was marked during that phase — for phase 1 at `gen` and
phase 2 at `gen + 1`. -/
theorem generation_isolation (data : ProcData) (jobs : List String) (dictSize : Nat) :
    ((processBatch data jobs dictSize).gen
        = 10 + 2 * (processBatch data jobs dictSize).calls) ∧
    (∀ v ∈ (processBatch data jobs dictSize).buf,
        v < (processBatch data jobs dictSize).gen + 2) ∧
    (∀ (w2m : Table) (A B : List Nat) (buf : List Nat) (g : Nat),
      (∀ v ∈ buf, v < g) →
      ∀ x : Nat,
        ((markPhase w2m B g buf).get? x = some g ↔
          x ∈ closureKeys w2m B ∧ x < buf.length) ∧
        ((markPhase w2m A (g + 1) (markPhase w2m B g buf)).get? x = some (g + 1) ↔
          x ∈ closureKeys w2m A ∧ x < buf.length)) := by
  refine ⟨(processBatch_gInv data jobs dictSize).2, (processBatch_gInv data jobs dictSize).1, ?_⟩
  intro w2m A B buf g hbuf x
  constructor
  · rw [markPhase_get?]
    by_cases hc : x ∈ closureKeys w2m B ∧ x < buf.length
    · rw [if_pos hc]
      simp [hc]
    · rw [if_neg hc]
      constructor
      · intro hsome
        exfalso
        cases hv : buf.get? x with
        | none =>
          rw [hv] at hsome
          exact Option.noConfusion hsome
        | some v =>
          rw [hv] at hsome
          have hvmem : v ∈ buf := List.get?_mem hv
          have := hbuf v hvmem
          injection hsome with h1
          omega
      · intro h
        exact absurd h hc
  · have hlen1 : (markPhase w2m B g buf).length = buf.length := markPhase_length w2m B g buf
    rw [markPhase_get?, hlen1]
    by_cases hc : x ∈ closureKeys w2m A ∧ x < buf.length
    · rw [if_pos hc]
      simp [hc]
    · rw [if_neg hc]
      constructor
      · intro hsome
        exfalso
        cases hv : (markPhase w2m B g buf).get? x with
        | none =>
          rw [hv] at hsome
          exact Option.noConfusion hsome
        | some v =>
          rw [hv] at hsome
          have hvmem := List.get?_mem hv
          rcases markPhase_mem w2m B g buf v hvmem with hm | rfl
          · have := hbuf v hm
            injection hsome with h1
            omega
          · injection hsome with h1
            omega
      · intro h
        exact absurd h hc

/-- C2 counterexample: a token of `B` with no `WordMatches` entry is NOT
stamped — the Go marking loop has no else branch.  With `B = [0]` and an
empty table, cell 0 keeps its stale value 0 instead of the phase generation
12; consequently `A = [0, 1], B = [0, 1]` with only token 1 in the table is
rejected (token 0 counts as a mismatch on both sides). -/
theorem absent_entry_unstamped_cex :
    (markPhase ([] : Table) [0] 12 [0]).get? 0 = some 0 ∧
    (some 0 : Option Nat) ≠ some 12 ∧
    (validateOptimized [0, 1] [0, 1] [(1, [1])] [0, 0] 12).1 = false := by decide

/-- C2 (amended): a token of the marked-from name with no entry in
`WordMatches` stamps nothing — marking behaves as if such tokens were
absent from the name (the treated set is `∅`, not the singleton). -/
theorem markPhase_absent_stamps_nothing (w2m : Table) (g : Nat) :
    ∀ (parts buf : List Nat),
      markPhase w2m parts g buf
        = markPhase w2m (parts.filter (fun w => (tblLookup w2m w).isSome)) g buf := by
  intro parts
  induction parts with
  | nil => intro buf; rfl
  | cons w rest ih =>
    intro buf
    rw [markPhase_cons]
    cases hlk : tblLookup w2m w with
    | none =>
      have hp : (tblLookup w2m w).isSome = false := by rw [hlk]; rfl
      rw [List.filter_cons, hp]
      simp only [Bool.false_eq_true, if_false]
      exact ih buf
    | some ms =>
      have hp : (tblLookup w2m w).isSome = true := by rw [hlk]; rfl
      rw [List.filter_cons, hp]
      simp only [if_true]
      rw [markPhase_cons, hlk]
      exact ih (stampList g buf ms)

/-- C9: the validator is total and cannot fault.  Unconditionally — for
every pair of id vectors, every table, every buffer and every generation —
the returned buffer keeps its length (writes out of range are dropped), and
the decision is determined by the mismatch counters in which a token id not
smaller than the buffer length (`get? = none`) counts as a mismatch rather
than faulting. -/
theorem validator_total_safe (A B : List Nat) (w2m : Table) (buf : List Nat) (g : Nat) :
    ((validateOptimized A B w2m buf g).2.length = buf.length) ∧
    (∀ a : Nat, buf.length ≤ a → (markPhase w2m B g buf).get? a ≠ some g) ∧
    ((validateOptimized A B w2m buf g).1 = true ↔
      (¬(B.length = 3 ∧
          0 < (B.toFinset.filter (fun w =>
            (markPhase w2m A (g + 1) (markPhase w2m B g buf)).get? w ≠ some (g + 1))).card ∧
          3 ≤ A.length) ∧
       ¬(A.length = 3 ∧
          0 < (A.toFinset.filter (fun w =>
            (markPhase w2m B g buf).get? w ≠ some g)).card ∧
          3 ≤ B.length) ∧
       ¬(((A.length : Int) - (A.toFinset.filter (fun w =>
            (markPhase w2m B g buf).get? w ≠ some g)).card < 2) ∨
         ((B.length : Int) - (B.toFinset.filter (fun w =>
            (markPhase w2m A (g + 1) (markPhase w2m B g buf)).get? w ≠ some (g + 1))).card
              < 2)))) := by
  refine ⟨?_, ?_, ?_⟩
  · rw [validateOptimized_snd, markPhase_length, markPhase_length]
  · intro a ha
    rw [markPhase_get?, if_neg (fun hcon => absurd hcon.2 (by omega)),
      List.get?_eq_none.mpr ha]
    exact Option.noConfusion
  · unfold validateOptimized
    dsimp only
    rw [countMism_eq, countMism_eq]
    simp only [List.toFinset_nil, Finset.sdiff_empty]
    split_ifs with h1 h2 h3
    · simp only [Bool.false_eq_true, false_iff]
      tauto
    · simp only [Bool.false_eq_true, false_iff]
      tauto
    · simp only [Bool.false_eq_true, false_iff]
      tauto
    · simp only [true_iff]
      tauto

/-- C10: duplicate tokens inflate the match counts.  With `A = B = [x, x]`
and `WordMatches[x] = ⦃x⦄`, the naive dupe skip yields zero mismatches while
`matchA = lenA − mismatchA` uses the full length 2, so the pair is accepted
although the names share only one distinct token. -/
theorem duplicate_tokens_inflate :
    (validateOptimized [0, 0] [0, 0] [(0, [0])] [0, 0] 12).1 = true ∧
    ([0, 0] : List Nat).toFinset.card = 1 ∧
    specMismatches [(0, [0])] [0, 0] [0, 0] = 0 ∧
    countMismatches (markPhase [(0, [0])] [0, 0] 12 [0, 0]) 12 [0, 0] [] = 0 ∧
    ([0, 0] : List Nat).length - specMismatches [(0, [0])] [0, 0] [0, 0] = 2 := by decide

/-- C4 counterexample: the pair-key sequence is NOT deduplicated at the
pair-key level.  With `parts = [0, 1]` and mutual tradeouts, both positions
expand to `{0, 1}` and the single Cartesian product emits `a_b` twice. -/
theorem pairkey_dedup_cex :
    buildExpandedPairMappings [0, 1] [(0, [1]), (1, [0])] ["a", "b"]
      = ["a_a", "a_b", "a_b", "b_b"] ∧
    ¬ (buildExpandedPairMappings [0, 1] [(0, [1]), (1, [0])] ["a", "b"]).Nodup := by decide

/-- C4 (amended): every element of the pair-key sequence is the two token
strings of an expanded position pair joined with `_`, ordered
lexicographically by string value; the sequence may repeat a pair-key
(dedup happens only at the position-pair level). -/
theorem pairkey_string_sorted (parts : List Nat) (t : Table) (dict : List String)
    (hlen : 2 ≤ parts.length) (s : String)
    (hs : s ∈ buildExpandedPairMappings parts t dict) :
    ∃ i j a b, i < j ∧ j < parts.length ∧
      a ∈ optsOf t (parts.getD i 0) ∧ b ∈ optsOf t (parts.getD j 0) ∧
      ∃ x y : String, s = x ++ "_" ++ y ∧ strLt y x = false ∧
        ((x = strOf dict a ∧ y = strOf dict b) ∨ (x = strOf dict b ∧ y = strOf dict a)) := by
  rw [mem_buildExpandedPairMappings] at hs
  obtain ⟨i, j, hij, hjn, a, b, ha, hb, rfl⟩ := hs
  refine ⟨i, j, a, b, hij, hjn, ha, hb, ?_⟩
  unfold pairKey
  dsimp only
  by_cases hc : strLt (strOf dict b) (strOf dict a) = true
  · rw [if_pos hc]
    exact ⟨strOf dict b, strOf dict a, rfl, strLt_asymm hc, Or.inr ⟨rfl, rfl⟩⟩
  · simp only [Bool.not_eq_true] at hc
    rw [if_neg (by rw [hc]; exact Bool.false_ne_true)]
    exact ⟨strOf dict a, strOf dict b, rfl, hc, Or.inl ⟨rfl, rfl⟩⟩

/-- Concrete `ProcessedData` on which one worker meets the same unordered
pair from both of its endpoint names. -/
def exData : ProcData where
  nameWords := [("a b", [0, 1]), ("a c", [0, 2])]
  wordToMatches := [(0, [0]), (1, [1, 2]), (2, [2, 1])]
  tradeoutSets := [(0, [0]), (1, [1]), (2, [2])]
  pairToNames := [("a_b", ["a b", "a c"]), ("a_c", ["a b", "a c"])]
  dict := ["a", "b", "c"]

/-- C3 counterexample: `seenMatches` is cleared per input name, so a single
worker that processes both `"a b"` and `"a c"` writes the pair
`("a b", "a c")` twice — the pair is not emitted at most once per worker. -/
theorem pair_emitted_twice_cex :
    (processBatch exData ["a b", "a c"] 3).out.count (mkMatchStr "a b" "a c") = 2 ∧
    ¬ ((processBatch exData ["a b", "a c"] 3).out.count (mkMatchStr "a b" "a c") ≤ 1) := by
  decide

/-- Pointwise enlargement of the equivalence table: every present entry of
`w2m` is present in `w2m'` with a superset list. -/
def tableLE (w2m w2m' : Table) : Prop :=
  ∀ w l, tblLookup w2m w = some l → ∃ l', tblLookup w2m' w = some l' ∧ ∀ x ∈ l, x ∈ l'

/-- The preprocessing rule of `preprocessData` for `TradeoutSets` in id
form: a key whose string has byte length ≠ 1 keeps its `WordMatches` list;
a single-byte key (an initial) maps to its own singleton. -/
def tradeoutsOf (dict : List String) (w2m : Table) : Table :=
  w2m.map (fun kv => (kv.1, if (strOf dict kv.1).utf8ByteSize ≠ 1 then kv.2 else [kv.1]))

theorem tblLookup_map_snd {α β : Type} (f : Nat → α → β) :
    ∀ (l : List (Nat × α)) (w : Nat),
      tblLookup (l.map (fun kv => (kv.1, f kv.1 kv.2))) w = (tblLookup l w).map (f w) := by
  intro l
  induction l with
  | nil => intro w; rfl
  | cons kv rest ih =>
    intro w
    obtain ⟨k, v⟩ := kv
    by_cases hw : w = k
    · subst hw
      simp [tblLookup]
    · simp [tblLookup, hw, ih]

theorem tblLookup_tradeoutsOf (dict : List String) (w2m : Table) (w : Nat) :
    tblLookup (tradeoutsOf dict w2m) w
      = (tblLookup w2m w).map
          (fun l => if (strOf dict w).utf8ByteSize ≠ 1 then l else [w]) :=
  tblLookup_map_snd (fun k v => if (strOf dict k).utf8ByteSize ≠ 1 then v else [k]) w2m w

theorem closureKeys_mono {w2m w2m' : Table} (hle : tableLE w2m w2m') (parts : List Nat) :
    ∀ x ∈ closureKeys w2m parts, x ∈ closureKeys w2m' parts := by
  intro x hx
  rw [closureKeys, List.mem_bind] at hx
  obtain ⟨w, hw, hxw⟩ := hx
  rw [closureKeys, List.mem_bind]
  cases hlk : tblLookup w2m w with
  | none =>
    rw [hlk] at hxw
    simp at hxw
  | some l =>
    rw [hlk] at hxw
    simp only [Option.getD_some] at hxw
    obtain ⟨l', hl', hsub⟩ := hle w l hlk
    exact ⟨w, hw, by rw [hl']; exact hsub x hxw⟩

theorem specMismatches_antitone {w2m w2m' : Table} (hle : tableLE w2m w2m')
    (q p : List Nat) : specMismatches w2m' q p ≤ specMismatches w2m q p := by
  apply Finset.card_le_card
  intro a ha
  rw [Finset.mem_filter] at ha ⊢
  exact ⟨ha.1, fun hmem => ha.2 (closureKeys_mono hle p a hmem)⟩

theorem optsOf_mono (dict : List String) {w2m w2m' : Table} (hle : tableLE w2m w2m')
    (w x : Nat) (hx : x ∈ optsOf (tradeoutsOf dict w2m) w) :
    x ∈ optsOf (tradeoutsOf dict w2m') w := by
  rw [mem_optsOf] at hx ⊢
  rcases hx with rfl | hx
  · exact Or.inl rfl
  · rw [tblLookup_tradeoutsOf] at hx
    cases hlk : tblLookup w2m w with
    | none =>
      rw [hlk] at hx
      simp at hx
    | some l =>
      rw [hlk] at hx
      have hx2 : x ∈ (if (strOf dict w).utf8ByteSize ≠ 1 then l else [w]) := by
        simpa using hx
      by_cases hb : (strOf dict w).utf8ByteSize ≠ 1
      · rw [if_pos hb] at hx2
        obtain ⟨l', hl', hsub⟩ := hle w l hlk
        right
        rw [tblLookup_tradeoutsOf, hl']
        simpa [hb] using hsub x hx2
      · rw [if_neg hb] at hx2
        exact Or.inl (by simpa using hx2)

/-- C6: enlarging the equivalence table (with `Tradeouts` recomputed by the
preprocessing rule) only adds output: the probe-key set of the pair-key
builder and the set of validator-accepted pairs both grow monotonically. -/
theorem equivalence_monotone (dict : List String) (w2m w2m' : Table)
    (hle : tableLE w2m w2m') :
    (∀ (parts : List Nat) (s : String),
      s ∈ buildExpandedPairMappings parts (tradeoutsOf dict w2m) dict →
      s ∈ buildExpandedPairMappings parts (tradeoutsOf dict w2m') dict) ∧
    (∀ (A B buf buf' : List Nat) (g g' : Nat),
      buf'.length = buf.length →
      (∀ a ∈ A, a < buf.length) → (∀ b ∈ B, b < buf.length) →
      (∀ v ∈ buf, v < g) → (∀ v ∈ buf', v < g') →
      (validateOptimized A B w2m buf g).1 = true →
      (validateOptimized A B w2m' buf' g').1 = true) := by
  constructor
  · intro parts s hs
    rw [mem_buildExpandedPairMappings] at hs ⊢
    obtain ⟨i, j, hij, hjn, a, b, ha, hb, rfl⟩ := hs
    exact ⟨i, j, hij, hjn, a, b, optsOf_mono dict hle _ a ha,
      optsOf_mono dict hle _ b hb, rfl⟩
  · intro A B buf buf' g g' hlen hA hB hbuf hbuf' hacc
    have h1 := (validateOptimized_spec A B w2m buf g hA hB hbuf).mp hacc
    have h2 := validateOptimized_spec A B w2m' buf' g'
      (fun a ha => hlen ▸ hA a ha) (fun b hb => hlen ▸ hB b hb) hbuf'
    apply h2.mpr
    have hmAB := specMismatches_antitone hle A B
    have hmBA := specMismatches_antitone hle B A
    refine ⟨?_, ?_, ?_⟩
    · rintro ⟨hb3, hpos, ha3⟩
      exact h1.1 ⟨hb3, lt_of_lt_of_le hpos hmBA, ha3⟩
    · rintro ⟨ha3, hpos, hb3⟩
      exact h1.2.1 ⟨ha3, lt_of_lt_of_le hpos hmAB, hb3⟩
    · rintro (hlt | hlt)
      · apply h1.2.2
        left
        have hcast : (specMismatches w2m' A B : Int) ≤ specMismatches w2m A B := by
          exact_mod_cast hmAB
        omega
      · apply h1.2.2
        right
        have hcast : (specMismatches w2m' B A : Int) ≤ specMismatches w2m B A := by
          exact_mod_cast hmBA
        omega

/-- Witness for C1 at a concrete accepted pair. -/
theorem validator_reject_rules_witness :
    (validateOptimized [0, 1] [0, 2] [(0, [0]), (1, [1, 2]), (2, [2, 1])] [0, 0, 0] 12).1
        = true ∧
    2 ≤ (([0, 1] : List Nat).length : Int)
        - specMismatches [(0, [0]), (1, [1, 2]), (2, [2, 1])] [0, 1] [0, 2] := by
  have h := validator_reject_rules [0, 1] [0, 2] [(0, [0]), (1, [1, 2]), (2, [2, 1])]
    [0, 0, 0] 12 (by decide) (by decide) (by decide)
  exact ⟨by decide, (h.2.1 (by decide)).1⟩

/-- Witness for C5 at a concrete pair, two fresh generations. -/
theorem validator_commutative_witness :
    (validateOptimized [0, 1] [0, 2] [(0, [0]), (1, [1, 2]), (2, [2, 1])] [0, 0, 0] 12).1
      = (validateOptimized [0, 2] [0, 1] [(0, [0]), (1, [1, 2]), (2, [2, 1])] [0, 0, 0] 14).1 :=
  validator_commutative [(0, [0]), (1, [1, 2]), (2, [2, 1])] [0, 1] [0, 2]
    [0, 0, 0] [0, 0, 0] 12 14 rfl (by decide) (by decide) (by decide) (by decide)

/-- Witness for C4 at a concrete emitted pair-key. -/
theorem pairkey_string_sorted_witness :
    ∃ i j a b, i < j ∧ j < ([0, 1] : List Nat).length ∧
      a ∈ optsOf [(0, [1]), (1, [0])] (([0, 1] : List Nat).getD i 0) ∧
      b ∈ optsOf [(0, [1]), (1, [0])] (([0, 1] : List Nat).getD j 0) ∧
      ∃ x y : String, "a_b" = x ++ "_" ++ y ∧ strLt y x = false ∧
        ((x = strOf ["a", "b"] a ∧ y = strOf ["a", "b"] b) ∨
         (x = strOf ["a", "b"] b ∧ y = strOf ["a", "b"] a)) :=
  pairkey_string_sorted [0, 1] [(0, [1]), (1, [0])] ["a", "b"] (by decide) "a_b" (by decide)

/-- Witness for C6: an enlarged table keeps the probe key of the smaller one. -/
theorem equivalence_monotone_witness :
    "aa_bb" ∈ buildExpandedPairMappings [0, 1]
      (tradeoutsOf ["aa", "bb"] [(0, [0, 1])]) ["aa", "bb"] := by
  have hle : tableLE [(0, [0])] [(0, [0, 1])] := by
    intro w l h
    by_cases hw : w = 0
    · subst hw
      refine ⟨[0, 1], by simp [tblLookup], ?_⟩
      have h2 : l = [0] := by
        simp [tblLookup] at h
        exact h.symm
      subst h2
      intro x hx
      simp only [List.mem_singleton] at hx
      simp [hx]
    · simp [tblLookup, hw] at h
  exact (equivalence_monotone ["aa", "bb"] [(0, [0])] [(0, [0, 1])] hle).1
    [0, 1] "aa_bb" (by decide)

/-- Witness for C7: a marked cell holds the phase generation. -/
theorem generation_isolation_witness :
    (markPhase [(0, [0])] ([] : List Nat) 12 [0, 0]).get? 5 ≠ some 12 ∧
    (markPhase [(0, [0])] [0] 12 [0, 0]).get? 0 = some 12 := by
  have h := generation_isolation exData [] 0
  constructor
  · intro hcon
    have h0 := ((h.2.2 [(0, [0])] [] [0] [0, 0] 12 (by decide) 5).1).mp
      (by rw [markPhase] at hcon; exact hcon)
    exact absurd h0.2 (by decide)
  · exact ((h.2.2 [(0, [0])] [] [0] [0, 0] 12 (by decide) 0).1).mpr (by decide)

/-- Witness for C8 at a concrete run. -/
theorem output_canonical_order_witness :
    ∃ n1 n2 : String, mkMatchStr "a b" "a c" = mkMatchStr n1 n2 ∧
      strLt n1 n2 = true ∧ n1 ≠ n2 :=
  output_canonical_order exData ["a b", "a c"] 3 (mkMatchStr "a b" "a c") (by decide)

/-- Witness for C9 at a concrete out-of-range token id. -/
theorem validator_total_safe_witness :
    (validateOptimized [5] [] ([] : Table) [0, 0] 12).2.length = ([0, 0] : List Nat).length ∧
    (markPhase ([] : Table) [] 12 [0, 0]).get? 5 ≠ some 12 := by
  have h := validator_total_safe [5] [] ([] : Table) [0, 0] 12
  exact ⟨h.1, h.2.1 5 (by decide)⟩
